import Mathlib

/-!
Verification of the `delight` bit-manipulation library.

The library operates on `usize` words of some fixed bit width `W`, using
Rust's `Wrapping` type so that `+` and `-` are performed modulo `2^W`.
We embed a word as a `Nat` together with a width parameter `w`, with the
invariant `x < 2 ^ w`; wrapping addition, subtraction, and bitwise
complement are made explicit as `wadd`, `wsub`, and `wnot`.
-/

namespace Delight

/-- Width-`w` wrapping addition: `Wrapping<usize>` addition on a `w`-bit word. -/
def wadd (w x y : Nat) : Nat := (x + y) % 2 ^ w

/-- Width-`w` wrapping subtraction: `Wrapping<usize>` subtraction on a `w`-bit
word, i.e. `x - y` modulo `2 ^ w` (two's-complement wraparound). -/
def wsub (w x y : Nat) : Nat := (x + (2 ^ w - y % 2 ^ w)) % 2 ^ w

/-- Width-`w` bitwise complement: Rust `!x` on a `w`-bit word. -/
def wnot (w x : Nat) : Nat := x ^^^ (2 ^ w - 1)

/-- `pub fn binary_turn_off_rightmost_one(x: usize) -> usize { x & (w - ONE).0 }` -/
def binary_turn_off_rightmost_one (w x : Nat) : Nat := x &&& wsub w x 1

/-- `pub fn binary_turn_on_rightmost_zero(x: usize) -> usize { x | (w + ONE).0 }` -/
def binary_turn_on_rightmost_zero (w x : Nat) : Nat := x ||| wadd w x 1

/-- `pub fn binary_turn_off_trailing_ones(x: usize) -> usize { x & (w + ONE).0 }` -/
def binary_turn_off_trailing_ones (w x : Nat) : Nat := x &&& wadd w x 1

/-- `pub fn binary_turn_on_trailing_zeros(x: usize) -> usize { x | (w - ONE).0 }` -/
def binary_turn_on_trailing_zeros (w x : Nat) : Nat := x ||| wsub w x 1

/-- `pub fn binary_rightmost_zero_bitmask(x: usize) -> usize { !x & (w + ONE).0 }` -/
def binary_rightmost_zero_bitmask (w x : Nat) : Nat := wnot w x &&& wadd w x 1

/-- `pub fn binary_rightmost_one_bitmask(x: usize) -> usize { x & (ZERO - w).0 }` -/
def binary_rightmost_one_bitmask (w x : Nat) : Nat := x &&& wsub w 0 x

/-- `pub fn binary_trailing_zeros_bitmask(x: usize) -> usize { !x & (w - ONE).0 }` -/
def binary_trailing_zeros_bitmask (w x : Nat) : Nat := wnot w x &&& wsub w x 1

/-- `pub fn binary_trailing_ones_bitmask(x: usize) -> usize { x & !(w + ONE).0 }` -/
def binary_trailing_ones_bitmask (w x : Nat) : Nat := x &&& wnot w (wadd w x 1)

/-- `pub fn binary_leading_ones_bitmask(x: usize) -> usize
    { ((rightmost + w) & w).0 }` where
    `rightmost = Wrapping(binary_rightmost_one_bitmask(x))`. -/
def binary_leading_ones_bitmask (w x : Nat) : Nat :=
  wadd w (binary_rightmost_one_bitmask w x) x &&& x

/-- Fuel-driven count of trailing zero bits. -/
def ctzAux : Nat → Nat → Nat
  | 0, _ => 0
  | fuel + 1, n => if n = 0 then 0 else if n % 2 = 1 then 0 else ctzAux fuel (n / 2) + 1

/-- Count of trailing zero bits of `n` (with `ctz 0 = 0` by convention). -/
def ctz (n : Nat) : Nat := ctzAux n n

/-- Fuel-driven population count. -/
def popcountAux : Nat → Nat → Nat
  | 0, _ => 0
  | fuel + 1, n => if n = 0 then 0 else popcountAux fuel (n / 2) + n % 2

/-- Number of set bits of `n`. -/
def popcount (n : Nat) : Nat := popcountAux n n

/-- Length of the contiguous run of set bits starting at the lowest set bit
of `x` (zero when `x = 0`). -/
def runLen (x : Nat) : Nat := ctz ((x >>> ctz x) + 1)

lemma ctzAux_zero_right (f : Nat) : ctzAux f 0 = 0 := by
  cases f <;> simp [ctzAux]

lemma ctzAux_congr : ∀ f g n, n ≤ f → n ≤ g → ctzAux f n = ctzAux g n := by
  intro f
  induction f with
  | zero =>
    intro g n hf _
    have hn : n = 0 := Nat.le_zero.mp hf
    subst hn
    rw [ctzAux_zero_right, ctzAux_zero_right]
  | succ f ih =>
    intro g n hf hg
    by_cases hn : n = 0
    · subst hn
      rw [ctzAux_zero_right, ctzAux_zero_right]
    · obtain ⟨g', rfl⟩ : ∃ g', g = g' + 1 := by
        cases g with
        | zero => omega
        | succ g' => exact ⟨g', rfl⟩
      by_cases hodd : n % 2 = 1
      · simp [ctzAux, hn, hodd]
      · simp only [ctzAux, if_neg hn, if_neg hodd]
        have h1 : n / 2 ≤ f := by omega
        have h2 : n / 2 ≤ g' := by omega
        rw [ih g' (n / 2) h1 h2]

lemma ctz_zero : ctz 0 = 0 := rfl

lemma ctz_odd {n : Nat} (h : n % 2 = 1) : ctz n = 0 := by
  have hn : n ≠ 0 := by omega
  obtain ⟨m, rfl⟩ : ∃ m, n = m + 1 := ⟨n - 1, by omega⟩
  simp [ctz, ctzAux, h]

lemma ctz_even {n : Nat} (hn : n ≠ 0) (h : n % 2 = 0) : ctz n = ctz (n / 2) + 1 := by
  obtain ⟨m, rfl⟩ : ∃ m, n = m + 1 := ⟨n - 1, by omega⟩
  show ctzAux (m + 1) (m + 1) = ctz ((m + 1) / 2) + 1
  have hodd : ¬((m + 1) % 2 = 1) := by omega
  simp only [ctzAux, if_neg hn, if_neg hodd]
  congr 1
  exact ctzAux_congr m ((m + 1) / 2) ((m + 1) / 2) (by omega) (by omega)

lemma ctz_two_mul {m : Nat} (hm : m ≠ 0) : ctz (2 * m) = ctz m + 1 := by
  have h := ctz_even (n := 2 * m) (by omega) (by omega)
  rwa [Nat.mul_div_cancel_left m (by omega)] at h

lemma ctz_two_pow (k : Nat) : ctz (2 ^ k) = k := by
  induction k with
  | zero => exact ctz_odd (by decide)
  | succ k ih =>
    have h : (2:Nat) ^ (k + 1) = 2 * 2 ^ k := by ring
    rw [h, ctz_two_mul (Nat.two_pow_pos k).ne', ih]

lemma popcountAux_zero_right (f : Nat) : popcountAux f 0 = 0 := by
  cases f <;> simp [popcountAux]

lemma popcountAux_congr : ∀ f g n, n ≤ f → n ≤ g → popcountAux f n = popcountAux g n := by
  intro f
  induction f with
  | zero =>
    intro g n hf _
    have hn : n = 0 := Nat.le_zero.mp hf
    subst hn
    rw [popcountAux_zero_right, popcountAux_zero_right]
  | succ f ih =>
    intro g n hf hg
    by_cases hn : n = 0
    · subst hn
      rw [popcountAux_zero_right, popcountAux_zero_right]
    · obtain ⟨g', rfl⟩ : ∃ g', g = g' + 1 := by
        cases g with
        | zero => omega
        | succ g' => exact ⟨g', rfl⟩
      simp only [popcountAux, if_neg hn]
      have h1 : n / 2 ≤ f := by omega
      have h2 : n / 2 ≤ g' := by omega
      rw [ih g' (n / 2) h1 h2]

lemma popcount_zero : popcount 0 = 0 := rfl

lemma popcount_div_add (n : Nat) : popcount n = popcount (n / 2) + n % 2 := by
  by_cases hn : n = 0
  · subst hn; rfl
  · obtain ⟨m, rfl⟩ : ∃ m, n = m + 1 := ⟨n - 1, by omega⟩
    show popcountAux (m + 1) (m + 1) = _
    simp only [popcountAux, if_neg hn]
    congr 1
    exact popcountAux_congr m ((m + 1) / 2) ((m + 1) / 2) (by omega) (by omega)

lemma popcount_eq_zero {n : Nat} (h : popcount n = 0) : n = 0 := by
  induction n using Nat.strong_induction_on with
  | _ n ih =>
    by_cases hn : n = 0
    · exact hn
    · exfalso
      have hd := popcount_div_add n
      rw [h] at hd
      have h2 : popcount (n / 2) = 0 := by omega
      have h3 : n % 2 = 0 := by omega
      have h4 : n / 2 = 0 := ih (n / 2) (by omega) h2
      omega

lemma land_split {n u v : Nat} (a b : Nat) (hu : u < 2 ^ n) (hv : v < 2 ^ n) :
    (2 ^ n * a + u) &&& (2 ^ n * b + v) = 2 ^ n * (a &&& b) + (u &&& v) := by
  apply Nat.eq_of_testBit_eq
  intro j
  rw [Nat.testBit_and, Nat.testBit_mul_pow_two_add _ hu, Nat.testBit_mul_pow_two_add _ hv,
    Nat.testBit_mul_pow_two_add _ (Nat.and_lt_two_pow u hv)]
  by_cases hj : j < n <;> simp [hj, Nat.testBit_and]

lemma lor_split {n u v : Nat} (a b : Nat) (hu : u < 2 ^ n) (hv : v < 2 ^ n) :
    (2 ^ n * a + u) ||| (2 ^ n * b + v) = 2 ^ n * (a ||| b) + (u ||| v) := by
  apply Nat.eq_of_testBit_eq
  intro j
  rw [Nat.testBit_or, Nat.testBit_mul_pow_two_add _ hu, Nat.testBit_mul_pow_two_add _ hv,
    Nat.testBit_mul_pow_two_add _ (Nat.or_lt_two_pow hu hv)]
  by_cases hj : j < n <;> simp [hj, Nat.testBit_or]

/-- Two numbers that sum to `2 ^ n - 1` are bitwise complements, hence disjoint. -/
lemma land_eq_zero_of_add_eq : ∀ n a b : Nat, a + b + 1 = 2 ^ n → a &&& b = 0 := by
  intro n
  induction n with
  | zero =>
    intro a b h
    have ha : a = 0 := by omega
    have hb : b = 0 := by omega
    subst ha; subst hb; rfl
  | succ n ih =>
    intro a b h
    have h2 : (2:Nat) ^ (n + 1) = 2 * 2 ^ n := by ring
    rw [h2] at h
    have hmod : ¬((a &&& b) % 2 = 1) := by
      rw [Nat.and_mod_two_eq_one]
      omega
    have hdiv : (a &&& b) / 2 = 0 := by
      rw [Nat.and_div_two]
      exact ih (a / 2) (b / 2) (by omega)
    omega

/-- `2 ^ k` and `2 ^ k - 1` have no bits in common. -/
lemma two_pow_land_pred (k : Nat) : 2 ^ k &&& (2 ^ k - 1) = 0 := by
  apply land_eq_zero_of_add_eq (k + 1)
  have := Nat.two_pow_pos k
  have h2 : (2:Nat) ^ (k + 1) = 2 * 2 ^ k := by ring
  omega

/-- The lowest-set-bit decomposition: a nonzero number is
`2 ^ (k + 1) * a + 2 ^ k` where `k` counts its trailing zeros. -/
lemma ctz_decomp {x : Nat} (hx : x ≠ 0) :
    ∃ a, x = 2 ^ (ctz x + 1) * a + 2 ^ ctz x := by
  induction x using Nat.strong_induction_on with
  | _ x ih =>
    by_cases hodd : x % 2 = 1
    · refine ⟨x / 2, ?_⟩
      rw [ctz_odd hodd]
      omega
    · have hx2 : x / 2 ≠ 0 := by omega
      obtain ⟨a, ha⟩ := ih (x / 2) (by omega) hx2
      refine ⟨a, ?_⟩
      rw [ctz_even hx (by omega)]
      have hx' : x = 2 * (x / 2) := by omega
      calc x = 2 * (x / 2) := hx'
        _ = 2 * (2 ^ (ctz (x / 2) + 1) * a + 2 ^ ctz (x / 2)) := by rw [← ha]
        _ = 2 ^ (ctz (x / 2) + 1 + 1) * a + 2 ^ (ctz (x / 2) + 1) := by ring

/-- Bit `ctz x` of a nonzero `x` is set. -/
lemma testBit_ctz_self {x : Nat} (hx : x ≠ 0) : x.testBit (ctz x) = true := by
  obtain ⟨a, ha⟩ := ctz_decomp hx
  have hlt : 2 ^ ctz x < 2 ^ (ctz x + 1) := by
    have := Nat.two_pow_pos (ctz x)
    have h2 : (2:Nat) ^ (ctz x + 1) = 2 * 2 ^ ctz x := by ring
    omega
  have h := Nat.testBit_mul_pow_two_add (a := a) hlt (ctz x)
  rw [← ha] at h
  rw [h, if_pos (by omega)]
  exact Nat.testBit_two_pow_self

/-- All bits of `x` below `ctz x` are clear. -/
lemma testBit_lt_ctz {x j : Nat} (hj : j < ctz x) : x.testBit j = false := by
  by_cases hx : x = 0
  · subst hx; simp
  obtain ⟨a, ha⟩ := ctz_decomp hx
  have hlt : 2 ^ ctz x < 2 ^ (ctz x + 1) := by
    have := Nat.two_pow_pos (ctz x)
    have h2 : (2:Nat) ^ (ctz x + 1) = 2 * 2 ^ ctz x := by ring
    omega
  have h := Nat.testBit_mul_pow_two_add (a := a) hlt j
  rw [← ha] at h
  rw [h, if_pos (by omega)]
  exact Nat.testBit_two_pow_of_ne (by omega)

lemma one_lt_two_pow {w : Nat} (hw : w ≠ 0) : 1 < 2 ^ w := by
  have h2 : (2:Nat) ^ 1 ≤ 2 ^ w := Nat.pow_le_pow_right (by omega) (by omega)
  omega

lemma wadd_lt (w x y : Nat) : wadd w x y < 2 ^ w := Nat.mod_lt _ (Nat.two_pow_pos w)

lemma wsub_lt (w x y : Nat) : wsub w x y < 2 ^ w := Nat.mod_lt _ (Nat.two_pow_pos w)

lemma wnot_lt {w x : Nat} (hw : x < 2 ^ w) : wnot w x < 2 ^ w :=
  Nat.xor_lt_two_pow hw (by have := Nat.two_pow_pos w; omega)

lemma wadd_eq {w x y : Nat} (h : x + y < 2 ^ w) : wadd w x y = x + y := Nat.mod_eq_of_lt h

lemma wadd_eq_zero {w x y : Nat} (h : x + y = 2 ^ w) : wadd w x y = 0 := by
  unfold wadd
  rw [h, Nat.mod_self]

lemma wsub_one {w x : Nat} (hx : 1 ≤ x) (hw : x < 2 ^ w) : wsub w x 1 = x - 1 := by
  have hwne : w ≠ 0 := by
    intro h
    subst h
    simp at hw
    omega
  have h1 : 1 % 2 ^ w = 1 := Nat.mod_eq_of_lt (one_lt_two_pow hwne)
  unfold wsub
  rw [h1]
  have h2 : x + (2 ^ w - 1) = (x - 1) + 2 ^ w := by
    have := Nat.two_pow_pos w
    omega
  rw [h2, Nat.add_mod_right]
  exact Nat.mod_eq_of_lt (by omega)

lemma wsub_one_zero (w : Nat) : wsub w 0 1 = 2 ^ w - 1 := by
  by_cases hw : w = 0
  · subst hw; rfl
  · have h1 : 1 % 2 ^ w = 1 := Nat.mod_eq_of_lt (one_lt_two_pow hw)
    unfold wsub
    rw [h1, Nat.zero_add]
    exact Nat.mod_eq_of_lt (by have := Nat.two_pow_pos w; omega)

lemma wsub_zero_left {w x : Nat} (hx : x ≠ 0) (hw : x < 2 ^ w) : wsub w 0 x = 2 ^ w - x := by
  unfold wsub
  rw [Nat.mod_eq_of_lt hw, Nat.zero_add]
  exact Nat.mod_eq_of_lt (by have := Nat.two_pow_pos w; omega)

/-- Detailed shape of a nonzero `w`-bit word around its lowest set bit. -/
lemma word_decomp {w x : Nat} (hw : x < 2 ^ w) (hx : x ≠ 0) :
    ∃ a, x = 2 ^ (ctz x + 1) * a + 2 ^ ctz x ∧ ctz x < w ∧ a < 2 ^ (w - ctz x - 1) := by
  obtain ⟨a, ha⟩ := ctz_decomp hx
  set k := ctz x with hk
  have hkpow : 2 ^ k ≤ x := by omega
  have hkw : k < w := by
    by_contra hkw
    have : 2 ^ w ≤ 2 ^ k := Nat.pow_le_pow_right (by omega) (by omega)
    omega
  have hR : 2 ^ w = 2 ^ (k + 1) * 2 ^ (w - k - 1) := by
    rw [← pow_add]
    congr 1
    omega
  have haR : a < 2 ^ (w - k - 1) := by
    apply Nat.lt_of_mul_lt_mul_left (a := 2 ^ (k + 1))
    have h2k := Nat.two_pow_pos k
    omega
  exact ⟨a, ha, hkw, haR⟩

/-- The rightmost-one bitmask of a nonzero word isolates bit `ctz x`. -/
lemma rmb_eq {w x : Nat} (hw : x < 2 ^ w) (hx : x ≠ 0) :
    binary_rightmost_one_bitmask w x = 2 ^ ctz x := by
  obtain ⟨a, ha, hkw, haR⟩ := word_decomp hw hx
  set k := ctz x with hk
  have hpos := Nat.two_pow_pos k
  have hP : (2:Nat) ^ (k + 1) = 2 * 2 ^ k := by ring
  set b := 2 ^ (w - k - 1) - 1 - a with hb
  have hab : a + b + 1 = 2 ^ (w - k - 1) := by omega
  have hR : 2 ^ w = 2 ^ (k + 1) * 2 ^ (w - k - 1) := by
    rw [← pow_add]
    congr 1
    omega
  have hsum : x + (2 ^ (k + 1) * b + 2 ^ k) = 2 ^ w := by
    rw [ha, hR, ← hab]
    ring
  have hsub : 2 ^ w - x = 2 ^ (k + 1) * b + 2 ^ k := by omega
  show x &&& wsub w 0 x = 2 ^ k
  rw [wsub_zero_left hx hw, hsub]
  conv_lhs => rw [ha]
  rw [land_split a b (by omega) (by omega), Nat.and_self,
    land_eq_zero_of_add_eq _ a b hab, Nat.mul_zero, Nat.zero_add]

/-- Clearing the rightmost one of a nonzero word subtracts `2 ^ ctz x`. -/
lemma tor_eq {w x : Nat} (hw : x < 2 ^ w) (hx : x ≠ 0) :
    binary_turn_off_rightmost_one w x = x - 2 ^ ctz x := by
  obtain ⟨a, ha, hkw, haR⟩ := word_decomp hw hx
  set k := ctz x with hk
  have hpos := Nat.two_pow_pos k
  have hP : (2:Nat) ^ (k + 1) = 2 * 2 ^ k := by ring
  show x &&& wsub w x 1 = x - 2 ^ k
  rw [wsub_one (by omega) hw]
  have hpred : x - 1 = 2 ^ (k + 1) * a + (2 ^ k - 1) := by omega
  have hgoal : x - 2 ^ k = 2 ^ (k + 1) * a := by omega
  rw [hgoal, hpred]
  conv_lhs => rw [ha]
  rw [land_split a a (by omega) (by omega), Nat.and_self, two_pow_land_pred, Nat.add_zero]

/-- Bitwise view of `binary_turn_off_rightmost_one`: bit `ctz x` is cleared
and every other bit is unchanged. -/
lemma tor_testBit {w x : Nat} (hw : x < 2 ^ w) (hx : x ≠ 0) (i : Nat) :
    (binary_turn_off_rightmost_one w x).testBit i = (x.testBit i && decide (i ≠ ctz x)) := by
  obtain ⟨a, ha, hkw, haR⟩ := word_decomp hw hx
  set k := ctz x with hk
  have hpos := Nat.two_pow_pos k
  have hP : (2:Nat) ^ (k + 1) = 2 * 2 ^ k := by ring
  have htor : binary_turn_off_rightmost_one w x = 2 ^ (k + 1) * a := by
    rw [tor_eq hw hx, ← hk]
    omega
  rw [htor]
  have hxbit : x.testBit i =
      if i < k + 1 then Nat.testBit (2 ^ k) i else a.testBit (i - (k + 1)) := by
    have h := Nat.testBit_mul_pow_two_add (a := a) (show 2 ^ k < 2 ^ (k + 1) by omega) i
    rw [← ha] at h
    exact h
  rw [Nat.testBit_mul_pow_two, hxbit]
  by_cases hik : i < k + 1
  · by_cases hik2 : i = k
    · have h1 : ¬(k + 1 ≤ i) := by omega
      simp [hik, hik2, h1]
    · have h1 : ¬(k + 1 ≤ i) := by omega
      have h2 : k ≠ i := by omega
      simp [hik, h1, hik2, Nat.testBit_two_pow_of_ne h2]
  · have h1 : k + 1 ≤ i := by omega
    have h2 : i ≠ k := by omega
    simp [hik, h1, h2]

/-- `2 ^ k` or-ed with `2 ^ k - 1` fills bits `0..k`. -/
lemma two_pow_lor_pred (k : Nat) : 2 ^ k ||| (2 ^ k - 1) = 2 ^ (k + 1) - 1 := by
  have hpos := Nat.two_pow_pos k
  have h := Nat.mul_add_lt_is_or (show 2 ^ k - 1 < 2 ^ k by omega) 1
  rw [Nat.mul_one] at h
  rw [← h]
  have h2 : (2:Nat) ^ (k + 1) = 2 * 2 ^ k := by ring
  omega

/-- Turning on the trailing zeros of a nonzero word adds `2 ^ ctz x - 1`. -/
lemma totz_eq {w x : Nat} (hw : x < 2 ^ w) (hx : x ≠ 0) :
    binary_turn_on_trailing_zeros w x = x + (2 ^ ctz x - 1) := by
  obtain ⟨a, ha, hkw, haR⟩ := word_decomp hw hx
  set k := ctz x with hk
  have hpos := Nat.two_pow_pos k
  have hP : (2:Nat) ^ (k + 1) = 2 * 2 ^ k := by ring
  show x ||| wsub w x 1 = x + (2 ^ k - 1)
  rw [wsub_one (by omega) hw]
  have hpred : x - 1 = 2 ^ (k + 1) * a + (2 ^ k - 1) := by omega
  rw [hpred]
  conv_lhs => rw [ha]
  rw [lor_split a a (by omega) (by omega), Nat.or_self, two_pow_lor_pred]
  omega

/-- Bitwise view of `binary_turn_on_trailing_zeros`: every bit below `ctz x`
is set, every other bit is unchanged. -/
lemma totz_testBit {w x : Nat} (hw : x < 2 ^ w) (hx : x ≠ 0) (i : Nat) :
    (binary_turn_on_trailing_zeros w x).testBit i = (x.testBit i || decide (i < ctz x)) := by
  obtain ⟨a, ha, hkw, haR⟩ := word_decomp hw hx
  set k := ctz x with hk
  have hpos := Nat.two_pow_pos k
  have hP : (2:Nat) ^ (k + 1) = 2 * 2 ^ k := by ring
  have htotz : binary_turn_on_trailing_zeros w x = 2 ^ (k + 1) * a + (2 ^ (k + 1) - 1) := by
    rw [totz_eq hw hx, ← hk]
    omega
  rw [htotz]
  have hxbit : x.testBit i =
      if i < k + 1 then Nat.testBit (2 ^ k) i else a.testBit (i - (k + 1)) := by
    have h := Nat.testBit_mul_pow_two_add (a := a) (show 2 ^ k < 2 ^ (k + 1) by omega) i
    rw [← ha] at h
    exact h
  rw [Nat.testBit_mul_pow_two_add _ (show 2 ^ (k + 1) - 1 < 2 ^ (k + 1) by omega), hxbit]
  by_cases hik : i < k + 1
  · by_cases hik2 : i = k
    · simp [hik, hik2, Nat.testBit_two_pow_self]
    · have h2 : k ≠ i := by omega
      have h3 : i < k := by omega
      simp [hik, Nat.testBit_two_pow_of_ne h2, h3]
  · have h2 : ¬(i < k) := by omega
    simp [hik, h2]

/-- Bit `ctz (x + 1)` — the lowest clear bit — of `x` is clear. -/
lemma testBit_cto_self (x : Nat) : x.testBit (ctz (x + 1)) = false := by
  obtain ⟨b, hb⟩ := ctz_decomp (show x + 1 ≠ 0 by omega)
  set t := ctz (x + 1) with ht
  have hpos := Nat.two_pow_pos t
  have hx2 : x = 2 ^ (t + 1) * b + (2 ^ t - 1) := by omega
  have h := Nat.testBit_mul_pow_two_add (a := b)
    (show 2 ^ t - 1 < 2 ^ (t + 1) by have h2 : (2:Nat) ^ (t + 1) = 2 * 2 ^ t := by ring
                                     omega) t
  rw [← hx2] at h
  rw [h, if_pos (by omega)]
  simp

/-- All bits of `x` below `ctz (x + 1)` are set. -/
lemma testBit_lt_cto {x j : Nat} (hj : j < ctz (x + 1)) : x.testBit j = true := by
  obtain ⟨b, hb⟩ := ctz_decomp (show x + 1 ≠ 0 by omega)
  set t := ctz (x + 1) with ht
  have hpos := Nat.two_pow_pos t
  have hx2 : x = 2 ^ (t + 1) * b + (2 ^ t - 1) := by omega
  have h := Nat.testBit_mul_pow_two_add (a := b)
    (show 2 ^ t - 1 < 2 ^ (t + 1) by have h2 : (2:Nat) ^ (t + 1) = 2 * 2 ^ t := by ring
                                     omega) j
  rw [← hx2] at h
  rw [h, if_pos (by omega)]
  simp [hj]

/-- Turning on the rightmost zero of a non-all-ones word adds `2 ^ ctz (x + 1)`. -/
lemma torz0_eq {w x : Nat} (hw : x < 2 ^ w) (hfull : x ≠ 2 ^ w - 1) :
    binary_turn_on_rightmost_zero w x = x + 2 ^ ctz (x + 1) := by
  obtain ⟨b, hb⟩ := ctz_decomp (show x + 1 ≠ 0 by omega)
  set t := ctz (x + 1) with ht
  have hpos := Nat.two_pow_pos t
  have hT : (2:Nat) ^ (t + 1) = 2 * 2 ^ t := by ring
  have hx2 : x = 2 ^ (t + 1) * b + (2 ^ t - 1) := by omega
  show x ||| wadd w x 1 = x + 2 ^ t
  rw [wadd_eq (by omega)]
  conv_lhs => rw [hx2]
  rw [show 2 ^ (t + 1) * b + (2 ^ t - 1) + 1 = 2 ^ (t + 1) * b + 2 ^ t from by omega]
  rw [lor_split b b (by omega) (by omega), Nat.or_self, Nat.lor_comm, two_pow_lor_pred]
  omega

/-- Bitwise view of `binary_turn_on_rightmost_zero`: bit `ctz (x + 1)` is set
and every other bit is unchanged. -/
lemma torz0_testBit {w x : Nat} (hw : x < 2 ^ w) (hfull : x ≠ 2 ^ w - 1) (i : Nat) :
    (binary_turn_on_rightmost_zero w x).testBit i =
      (x.testBit i || decide (i = ctz (x + 1))) := by
  obtain ⟨b, hb⟩ := ctz_decomp (show x + 1 ≠ 0 by omega)
  set t := ctz (x + 1) with ht
  have hpos := Nat.two_pow_pos t
  have hT : (2:Nat) ^ (t + 1) = 2 * 2 ^ t := by ring
  have hx2 : x = 2 ^ (t + 1) * b + (2 ^ t - 1) := by omega
  have htorz : binary_turn_on_rightmost_zero w x = 2 ^ (t + 1) * b + (2 ^ (t + 1) - 1) := by
    rw [torz0_eq hw hfull, ← ht]
    omega
  rw [htorz]
  have hxbit : x.testBit i =
      if i < t + 1 then Nat.testBit (2 ^ t - 1) i else b.testBit (i - (t + 1)) := by
    have h := Nat.testBit_mul_pow_two_add (a := b) (show 2 ^ t - 1 < 2 ^ (t + 1) by omega) i
    rw [← hx2] at h
    exact h
  rw [Nat.testBit_mul_pow_two_add _ (show 2 ^ (t + 1) - 1 < 2 ^ (t + 1) by omega), hxbit]
  by_cases hit : i < t + 1
  · by_cases hit2 : i = t
    · simp [hit, hit2]
    · have h3 : i < t := by omega
      simp [hit, h3, hit2]
  · have h3 : ¬(i = t) := by omega
    simp [hit, h3]

/-- `runLen` through the lowest-set-bit decomposition. -/
lemma runLen_eq {x a : Nat} (_hx : x ≠ 0) (ha : x = 2 ^ (ctz x + 1) * a + 2 ^ ctz x) :
    runLen x = ctz (a + 1) + 1 := by
  unfold runLen
  set k := ctz x with hk
  have hxk : x = 2 ^ k * (2 * a + 1) := by rw [ha]; ring
  have hshift : x >>> k = 2 * a + 1 := by
    rw [Nat.shiftRight_eq_div_pow, hxk]
    exact Nat.mul_div_cancel_left _ (Nat.two_pow_pos k)
  rw [hshift, show 2 * a + 1 + 1 = 2 * (a + 1) from by ring, ctz_two_mul (by omega)]

/-- Bitwise view of `binary_leading_ones_bitmask`: the run of set bits
from bit `ctz x` through bit `ctz x + runLen x - 1` is cleared, and only
the bits of `x` strictly above that run survive. -/
lemma lob_testBit {w x : Nat} (hw : x < 2 ^ w) (i : Nat) :
    (binary_leading_ones_bitmask w x).testBit i =
      (x.testBit i && decide (ctz x + runLen x ≤ i)) := by
  by_cases hx : x = 0
  · subst hx
    show (wadd w (binary_rightmost_one_bitmask w 0) 0 &&& 0).testBit i = _
    simp
  obtain ⟨a, ha, hkw, haR⟩ := word_decomp hw hx
  have hrun : runLen x = ctz (a + 1) + 1 := runLen_eq hx ha
  set k := ctz x with hk
  obtain ⟨b, hb⟩ := ctz_decomp (show a + 1 ≠ 0 by omega)
  set s := ctz (a + 1) with hs
  have hkpos := Nat.two_pow_pos k
  have hspos := Nat.two_pow_pos s
  have hP : (2:Nat) ^ (k + 1) = 2 * 2 ^ k := by ring
  have hS : (2:Nat) ^ (s + 1) = 2 * 2 ^ s := by ring
  have haa : a = 2 ^ (s + 1) * b + (2 ^ s - 1) := by omega
  have hpow1 : (2:Nat) ^ (k + 1) * 2 ^ (s + 1) = 2 ^ (k + s + 2) := by
    rw [← pow_add]
    congr 1
    omega
  have hkey : 2 ^ (k + 1) * a = 2 ^ (k + s + 2) * b + 2 ^ (k + 1) * (2 ^ s - 1) := by
    rw [haa, Nat.mul_add, ← Nat.mul_assoc, hpow1]
  have hx2 : x = 2 ^ (k + s + 2) * b + (2 ^ (k + 1) * (2 ^ s - 1) + 2 ^ k) := by omega
  have hpow2 : (2:Nat) ^ (k + 1) * 2 ^ s = 2 ^ (k + s + 1) := by
    rw [← pow_add]
    congr 1
    omega
  have hfill : 2 ^ (k + 1) * (2 ^ s - 1) + 2 ^ (k + 1) = 2 ^ (k + s + 1) := by
    calc 2 ^ (k + 1) * (2 ^ s - 1) + 2 ^ (k + 1)
        = 2 ^ (k + 1) * (2 ^ s - 1 + 1) := by ring
      _ = 2 ^ (k + 1) * 2 ^ s := by rw [show 2 ^ s - 1 + 1 = 2 ^ s from by omega]
      _ = 2 ^ (k + s + 1) := hpow2
  have hpows : (2:Nat) ^ (k + s + 1) ≤ 2 ^ (k + s + 2) :=
    Nat.pow_le_pow_right (by omega) (by omega)
  have hr_lt : 2 ^ (k + 1) * (2 ^ s - 1) + 2 ^ k < 2 ^ (k + s + 1) := by omega
  have hsum : 2 ^ k + x = 2 ^ (k + 1) * (a + 1) := by rw [ha]; ring
  have hkr : 2 ^ w = 2 ^ (k + 1) * 2 ^ (w - k - 1) := by
    rw [← pow_add]
    congr 1
    omega
  have hres : binary_leading_ones_bitmask w x = 2 ^ (k + s + 2) * b := by
    show wadd w (binary_rightmost_one_bitmask w x) x &&& x = _
    rw [rmb_eq hw hx, ← hk]
    rcases Nat.lt_or_ge (a + 1) (2 ^ (w - k - 1)) with hlt | hge
    · have hlt2 : 2 ^ (k + 1) * (a + 1) < 2 ^ w := by
        rw [hkr]
        exact mul_lt_mul' (Nat.le_refl _) hlt (Nat.zero_le _) (Nat.two_pow_pos _)
      rw [show wadd w (2 ^ k) x = 2 ^ (k + 1) * (a + 1) from by
        rw [wadd_eq (by omega)]
        omega]
      conv_lhs =>
        rw [ha, show (2:Nat) ^ (k + 1) * (a + 1) = 2 ^ (k + 1) * (a + 1) + 0 from by omega]
      rw [land_split (a + 1) a (by omega) (by omega), Nat.zero_and, Nat.add_zero]
      have hland : (a + 1) &&& a = 2 ^ (s + 1) * b := by
        conv_lhs => rw [hb, haa]
        rw [land_split b b (by omega) (by omega), Nat.and_self, two_pow_land_pred,
          Nat.add_zero]
      rw [hland, ← Nat.mul_assoc, hpow1]
    · have heq : a + 1 = 2 ^ (w - k - 1) := by omega
      have hw2 : 2 ^ k + x = 2 ^ w := by rw [hsum, heq, hkr]
      rw [wadd_eq_zero hw2, Nat.zero_and]
      have hsw : s = w - k - 1 := by rw [hs, heq, ctz_two_pow]
      have heq2 : a + 1 = 2 ^ s := by rw [hsw]; exact heq
      have h1 : 2 ^ (s + 1) * b = 0 := by omega
      rcases Nat.mul_eq_zero.mp h1 with h | h
      · exact absurd h (Nat.two_pow_pos (s + 1)).ne'
      · rw [h, Nat.mul_zero]
  rw [hres, hrun]
  have hxbit : x.testBit i =
      if i < k + s + 2 then (2 ^ (k + 1) * (2 ^ s - 1) + 2 ^ k).testBit i
      else b.testBit (i - (k + s + 2)) := by
    have h := Nat.testBit_mul_pow_two_add (a := b)
      (show 2 ^ (k + 1) * (2 ^ s - 1) + 2 ^ k < 2 ^ (k + s + 2) by omega) i
    rw [← hx2] at h
    exact h
  rw [Nat.testBit_mul_pow_two, hxbit]
  by_cases hi : k + s + 2 ≤ i
  · have h1 : ¬(i < k + s + 2) := by omega
    simp [hi, h1, show k + (s + 1) ≤ i from by omega]
  · have h1 : i < k + s + 2 := by omega
    by_cases hi2 : i = k + s + 1
    · have hbit : (2 ^ (k + 1) * (2 ^ s - 1) + 2 ^ k).testBit i = false := by
        apply Nat.testBit_lt_two_pow
        calc 2 ^ (k + 1) * (2 ^ s - 1) + 2 ^ k < 2 ^ (k + s + 1) := hr_lt
          _ ≤ 2 ^ i := Nat.pow_le_pow_right (by omega) (by omega)
      simp [h1, hbit, show ¬(k + s + 2 ≤ i) from hi]
    · simp [h1, show ¬(k + s + 2 ≤ i) from hi, show ¬(k + (s + 1) ≤ i) from by omega]

lemma popcount_split : ∀ n b r : Nat, r < 2 ^ n →
    popcount (2 ^ n * b + r) = popcount b + popcount r := by
  intro n
  induction n with
  | zero =>
    intro b r hr
    have hr0 : r = 0 := by omega
    subst hr0
    simp [popcount_zero]
  | succ n ih =>
    intro b r hr
    have hkey := popcount_div_add (2 ^ (n + 1) * b + r)
    have hmul : 2 ^ (n + 1) * b = 2 * (2 ^ n * b) := by ring
    have hdiv : (2 ^ (n + 1) * b + r) / 2 = 2 ^ n * b + r / 2 := by omega
    have hmod : (2 ^ (n + 1) * b + r) % 2 = r % 2 := by omega
    rw [hdiv, hmod] at hkey
    rw [hkey, ih b (r / 2) (by omega), popcount_div_add r]
    omega

lemma popcount_two_pow (k : Nat) : popcount (2 ^ k) = 1 := by
  have h := popcount_split k 1 0 (Nat.two_pow_pos k)
  rw [Nat.mul_one, Nat.add_zero] at h
  rw [h]
  rfl

/-- Clearing the rightmost one of a nonzero word removes exactly one set bit. -/
lemma popcount_tor {w x : Nat} (hw : x < 2 ^ w) (hx : x ≠ 0) :
    popcount (binary_turn_off_rightmost_one w x) + 1 = popcount x := by
  obtain ⟨a, ha, hkw, haR⟩ := word_decomp hw hx
  set k := ctz x with hk
  have hkpos := Nat.two_pow_pos k
  have hP : (2:Nat) ^ (k + 1) = 2 * 2 ^ k := by ring
  have htor : binary_turn_off_rightmost_one w x = 2 ^ (k + 1) * a := by
    rw [tor_eq hw hx, ← hk]
    omega
  have hpx := congrArg popcount ha
  rw [popcount_split (k + 1) a (2 ^ k) (by omega), popcount_two_pow] at hpx
  have hpt : popcount (2 ^ (k + 1) * a) = popcount a := by
    have h := popcount_split (k + 1) a 0 (Nat.two_pow_pos (k + 1))
    rw [Nat.add_zero] at h
    rw [h, popcount_zero]
    omega
  rw [htor, hpt]
  omega

lemma tor_le {w x : Nat} : binary_turn_off_rightmost_one w x ≤ x := Nat.and_le_left

/-- Iterating `binary_turn_off_rightmost_one` `popcount x` times clears the word. -/
lemma tor_iterate : ∀ c w x : Nat, x < 2 ^ w → popcount x = c →
    (binary_turn_off_rightmost_one w)^[c] x = 0 := by
  intro c
  induction c with
  | zero =>
    intro w x hw hp
    rw [Function.iterate_zero_apply]
    exact popcount_eq_zero hp
  | succ c ih =>
    intro w x hw hp
    have hx : x ≠ 0 := by
      intro h
      subst h
      rw [popcount_zero] at hp
      omega
    rw [Function.iterate_succ_apply]
    have h1 := popcount_tor hw hx
    exact ih w _ (Nat.lt_of_le_of_lt tor_le hw) (by omega)

/-- Every bit inside the run `[ctz x, ctz x + runLen x)` of a nonzero word is set. -/
lemma testBit_run {x j : Nat} (hx : x ≠ 0) (h1 : ctz x ≤ j) (h2 : j < ctz x + runLen x) :
    x.testBit j = true := by
  obtain ⟨a, ha⟩ := ctz_decomp hx
  have hrun : runLen x = ctz (a + 1) + 1 := runLen_eq hx ha
  set k := ctz x with hk
  obtain ⟨b, hb⟩ := ctz_decomp (show a + 1 ≠ 0 by omega)
  set s := ctz (a + 1) with hs
  have hkpos := Nat.two_pow_pos k
  have hspos := Nat.two_pow_pos s
  have hP : (2:Nat) ^ (k + 1) = 2 * 2 ^ k := by ring
  have hS : (2:Nat) ^ (s + 1) = 2 * 2 ^ s := by ring
  have haa : a = 2 ^ (s + 1) * b + (2 ^ s - 1) := by omega
  rw [hrun] at h2
  have hxbit : x.testBit j =
      if j < k + 1 then Nat.testBit (2 ^ k) j else a.testBit (j - (k + 1)) := by
    have h := Nat.testBit_mul_pow_two_add (a := a) (show 2 ^ k < 2 ^ (k + 1) by omega) j
    rw [← ha] at h
    exact h
  rw [hxbit]
  by_cases hjk : j < k + 1
  · have hjeq : j = k := by omega
    rw [if_pos hjk, hjeq]
    exact Nat.testBit_two_pow_self
  · rw [if_neg hjk]
    have habit : a.testBit (j - (k + 1)) =
        if j - (k + 1) < s + 1 then Nat.testBit (2 ^ s - 1) (j - (k + 1))
        else b.testBit (j - (k + 1) - (s + 1)) := by
      have h := Nat.testBit_mul_pow_two_add (a := b)
        (show 2 ^ s - 1 < 2 ^ (s + 1) by omega) (j - (k + 1))
      rw [← haa] at h
      exact h
    rw [habit, if_pos (by omega), Nat.testBit_two_pow_sub_one]
    exact decide_eq_true (by omega)

/-- The bit just above the run of set bits of a nonzero word is clear. -/
lemma testBit_run_end {x : Nat} (hx : x ≠ 0) : x.testBit (ctz x + runLen x) = false := by
  obtain ⟨a, ha⟩ := ctz_decomp hx
  have hrun : runLen x = ctz (a + 1) + 1 := runLen_eq hx ha
  set k := ctz x with hk
  obtain ⟨b, hb⟩ := ctz_decomp (show a + 1 ≠ 0 by omega)
  set s := ctz (a + 1) with hs
  have hkpos := Nat.two_pow_pos k
  have hspos := Nat.two_pow_pos s
  have hP : (2:Nat) ^ (k + 1) = 2 * 2 ^ k := by ring
  have hS : (2:Nat) ^ (s + 1) = 2 * 2 ^ s := by ring
  have haa : a = 2 ^ (s + 1) * b + (2 ^ s - 1) := by omega
  have hpow1 : (2:Nat) ^ (k + 1) * 2 ^ (s + 1) = 2 ^ (k + s + 2) := by
    rw [← pow_add]
    congr 1
    omega
  have hkey : 2 ^ (k + 1) * a = 2 ^ (k + s + 2) * b + 2 ^ (k + 1) * (2 ^ s - 1) := by
    rw [haa, Nat.mul_add, ← Nat.mul_assoc, hpow1]
  have hx2 : x = 2 ^ (k + s + 2) * b + (2 ^ (k + 1) * (2 ^ s - 1) + 2 ^ k) := by omega
  have hpow2 : (2:Nat) ^ (k + 1) * 2 ^ s = 2 ^ (k + s + 1) := by
    rw [← pow_add]
    congr 1
    omega
  have hfill : 2 ^ (k + 1) * (2 ^ s - 1) + 2 ^ (k + 1) = 2 ^ (k + s + 1) := by
    calc 2 ^ (k + 1) * (2 ^ s - 1) + 2 ^ (k + 1)
        = 2 ^ (k + 1) * (2 ^ s - 1 + 1) := by ring
      _ = 2 ^ (k + 1) * 2 ^ s := by rw [show 2 ^ s - 1 + 1 = 2 ^ s from by omega]
      _ = 2 ^ (k + s + 1) := hpow2
  have hpows : (2:Nat) ^ (k + s + 1) ≤ 2 ^ (k + s + 2) :=
    Nat.pow_le_pow_right (by omega) (by omega)
  have hr_lt : 2 ^ (k + 1) * (2 ^ s - 1) + 2 ^ k < 2 ^ (k + s + 1) := by omega
  have hxbit := Nat.testBit_mul_pow_two_add (a := b)
    (show 2 ^ (k + 1) * (2 ^ s - 1) + 2 ^ k < 2 ^ (k + s + 2) by omega) (k + s + 1)
  rw [← hx2] at hxbit
  rw [hrun, show k + (s + 1) = k + s + 1 from by omega, hxbit, if_pos (by omega)]
  exact Nat.testBit_lt_two_pow hr_lt

/-- Claim C1: for every `w`-bit word `x` with at least one set bit,
`binary_rightmost_one_bitmask` returns a word with exactly one bit set,
namely at the position `ctz x` of the lowest set bit of `x`;
`binary_rightmost_one_bitmask w 0 = 0`; and the result equals
`x &&& (0 - x)` with the subtraction taken modulo `2 ^ w`. -/
theorem claim_C1 (w x : Nat) (hw : x < 2 ^ w) :
    binary_rightmost_one_bitmask w x = x &&& wsub w 0 x ∧
    binary_rightmost_one_bitmask w 0 = 0 ∧
    (x ≠ 0 →
      binary_rightmost_one_bitmask w x = 2 ^ ctz x ∧
      (∀ i, (binary_rightmost_one_bitmask w x).testBit i = decide (i = ctz x)) ∧
      x.testBit (ctz x) = true ∧
      ∀ j, j < ctz x → x.testBit j = false) := by
  refine ⟨rfl, Nat.zero_and _, fun hx => ⟨rmb_eq hw hx, ?_, testBit_ctz_self hx,
    fun j hj => testBit_lt_ctz hj⟩⟩
  intro i
  rw [rmb_eq hw hx, Nat.testBit_two_pow]
  exact decide_eq_decide.mpr eq_comm

theorem claim_C1_witness :
    (216 : Nat) < 2 ^ 8 ∧ (216 : Nat) ≠ 0 ∧
      binary_rightmost_one_bitmask 8 216 = 2 ^ ctz 216 :=
  ⟨by decide, by decide, ((claim_C1 8 216 (by decide)).2.2 (by decide)).1⟩

/-- Claim C2: every one of the nine functions is total over the full range of
`w`-bit words and maps it back into that range; the wrapping primitives
`wadd` and `wsub` land in range on all inputs, wrapping modulo `2 ^ w`
instead of trapping. -/
theorem claim_C2 (w x : Nat) (hw : x < 2 ^ w) :
    (∀ y z, wadd w y z < 2 ^ w ∧ wsub w y z < 2 ^ w) ∧
    binary_turn_off_rightmost_one w x < 2 ^ w ∧
    binary_turn_on_rightmost_zero w x < 2 ^ w ∧
    binary_turn_off_trailing_ones w x < 2 ^ w ∧
    binary_turn_on_trailing_zeros w x < 2 ^ w ∧
    binary_rightmost_zero_bitmask w x < 2 ^ w ∧
    binary_rightmost_one_bitmask w x < 2 ^ w ∧
    binary_trailing_zeros_bitmask w x < 2 ^ w ∧
    binary_trailing_ones_bitmask w x < 2 ^ w ∧
    binary_leading_ones_bitmask w x < 2 ^ w :=
  ⟨fun y z => ⟨wadd_lt w y z, wsub_lt w y z⟩,
    Nat.lt_of_le_of_lt Nat.and_le_left hw,
    Nat.or_lt_two_pow hw (wadd_lt w x 1),
    Nat.lt_of_le_of_lt Nat.and_le_left hw,
    Nat.or_lt_two_pow hw (wsub_lt w x 1),
    Nat.lt_of_le_of_lt Nat.and_le_right (wadd_lt w x 1),
    Nat.lt_of_le_of_lt Nat.and_le_left hw,
    Nat.lt_of_le_of_lt Nat.and_le_right (wsub_lt w x 1),
    Nat.lt_of_le_of_lt Nat.and_le_left hw,
    Nat.lt_of_le_of_lt Nat.and_le_right hw⟩

theorem claim_C2_witness :
    (216 : Nat) < 2 ^ 8 ∧ binary_turn_off_rightmost_one 8 216 < 2 ^ 8 :=
  ⟨by decide, (claim_C2 8 216 (by decide)).2.1⟩

/-- Claim C3: for every `w`-bit word `x`, `binary_leading_ones_bitmask w x`
equals `(binary_rightmost_one_bitmask w x + x) &&& x` with the addition
taken modulo `2 ^ w`; bit by bit, the result keeps exactly the bits of `x`
strictly above the contiguous run of set bits `[ctz x, ctz x + runLen x)`
that contains the lowest set bit (that interval really is the run: its bits
are set in `x` and the bit just above it is clear); and on the spec's
example, `binary_leading_ones_bitmask` sends `0b11011110` to `0b11000000`. -/
theorem claim_C3 :
    (∀ w x, x < 2 ^ w →
      binary_leading_ones_bitmask w x = wadd w (binary_rightmost_one_bitmask w x) x &&& x ∧
      (∀ i, (binary_leading_ones_bitmask w x).testBit i =
        (x.testBit i && decide (ctz x + runLen x ≤ i))) ∧
      (x ≠ 0 →
        (∀ j, ctz x ≤ j → j < ctz x + runLen x → x.testBit j = true) ∧
        x.testBit (ctz x + runLen x) = false)) ∧
    binary_leading_ones_bitmask 8 0b11011110 = 0b11000000 :=
  ⟨fun _ x hw => ⟨rfl, fun i => lob_testBit hw i,
    fun hx => ⟨fun _ h1 h2 => testBit_run hx h1 h2, testBit_run_end hx⟩⟩, by decide⟩

theorem claim_C3_witness :
    (222 : Nat) < 2 ^ 8 ∧
      (binary_leading_ones_bitmask 8 222).testBit 7 =
        ((222 : Nat).testBit 7 && decide (ctz 222 + runLen 222 ≤ 7)) :=
  ⟨by decide, (claim_C3.1 8 222 (by decide)).2.1 7⟩

/-- Claim C4: for every `w`-bit word `x`, or-ing
`binary_turn_off_rightmost_one w x` with `binary_rightmost_one_bitmask w x`
reconstructs `x`. -/
theorem claim_C4 (w x : Nat) (hw : x < 2 ^ w) :
    binary_turn_off_rightmost_one w x ||| binary_rightmost_one_bitmask w x = x := by
  by_cases hx : x = 0
  · subst hx
    show ((0 : Nat) &&& wsub w 0 1) ||| ((0 : Nat) &&& wsub w 0 0) = 0
    rw [Nat.zero_and, Nat.zero_and, Nat.zero_or]
  · obtain ⟨a, ha, hkw, haR⟩ := word_decomp hw hx
    set k := ctz x with hk
    have hkpos := Nat.two_pow_pos k
    have hP : (2:Nat) ^ (k + 1) = 2 * 2 ^ k := by ring
    have htor : binary_turn_off_rightmost_one w x = 2 ^ (k + 1) * a := by
      rw [tor_eq hw hx, ← hk]
      omega
    rw [htor, rmb_eq hw hx, ← hk]
    rw [show (2:Nat) ^ (k + 1) * a = 2 ^ (k + 1) * a + 0 from by omega,
      show (2:Nat) ^ k = 2 ^ (k + 1) * 0 + 2 ^ k from by omega]
    rw [lor_split a 0 (by omega) (by omega), Nat.or_zero, Nat.zero_or]
    omega

theorem claim_C4_witness :
    (206 : Nat) < 2 ^ 8 ∧
      binary_turn_off_rightmost_one 8 206 ||| binary_rightmost_one_bitmask 8 206 = 206 :=
  ⟨by decide, claim_C4 8 206 (by decide)⟩

/-- Claim C5: for every `w`-bit word `x`, the rightmost-one bitmask and the
rightmost-zero bitmask of `x` are disjoint: their bitwise and is `0`. -/
theorem claim_C5 (w x : Nat) (hw : x < 2 ^ w) :
    binary_rightmost_one_bitmask w x &&& binary_rightmost_zero_bitmask w x = 0 := by
  apply Nat.eq_of_testBit_eq
  intro j
  show ((x &&& wsub w 0 x) &&& (wnot w x &&& wadd w x 1)).testBit j = Nat.testBit 0 j
  unfold wnot
  simp only [Nat.testBit_and, Nat.testBit_xor, Nat.zero_testBit, Nat.testBit_two_pow_sub_one]
  by_cases hj : j < w
  · cases hxj : x.testBit j <;> simp [hxj, hj]
  · have hxj : x.testBit j = false :=
      Nat.testBit_lt_two_pow (Nat.lt_of_lt_of_le hw (Nat.pow_le_pow_right (by omega) (by omega)))
    simp [hxj]

theorem claim_C5_witness :
    (219 : Nat) < 2 ^ 8 ∧
      binary_rightmost_one_bitmask 8 219 &&& binary_rightmost_zero_bitmask 8 219 = 0 :=
  ⟨by decide, claim_C5 8 219 (by decide)⟩

/-- Claim C6: for every `w`-bit word `x`, one application of
`binary_turn_off_rightmost_one` removes at most one set bit, a second
application removes at most one more, and iterating it `popcount x` times
yields `0`. -/
theorem claim_C6 (w x : Nat) (hw : x < 2 ^ w) :
    popcount x - 1 ≤ popcount (binary_turn_off_rightmost_one w x) ∧
    popcount (binary_turn_off_rightmost_one w x) - 1 ≤
      popcount (binary_turn_off_rightmost_one w (binary_turn_off_rightmost_one w x)) ∧
    (binary_turn_off_rightmost_one w)^[popcount x] x = 0 := by
  have htlt : binary_turn_off_rightmost_one w x < 2 ^ w := Nat.lt_of_le_of_lt tor_le hw
  refine ⟨?_, ?_, tor_iterate (popcount x) w x hw rfl⟩
  · by_cases hx : x = 0
    · subst hx
      simp [popcount_zero]
    · have h := popcount_tor hw hx
      omega
  · by_cases hy : binary_turn_off_rightmost_one w x = 0
    · rw [hy]
      simp [popcount_zero]
    · have h := popcount_tor htlt hy
      omega

theorem claim_C6_witness :
    (203 : Nat) < 2 ^ 8 ∧ (binary_turn_off_rightmost_one 8)^[popcount 203] 203 = 0 :=
  ⟨by decide, (claim_C6 8 203 (by decide)).2.2⟩

/-- Claim C7: for every nonzero `w`-bit word `x`,
`binary_turn_off_rightmost_one w x` equals `x &&& (x - 1)`, clears exactly
the lowest set bit `ctz x` of `x` and leaves every other bit unchanged;
and it returns `0` on input `0`. -/
theorem claim_C7 (w x : Nat) (hw : x < 2 ^ w) :
    binary_turn_off_rightmost_one w 0 = 0 ∧
    (x ≠ 0 →
      binary_turn_off_rightmost_one w x = x &&& (x - 1) ∧
      (∀ i, (binary_turn_off_rightmost_one w x).testBit i =
        (x.testBit i && decide (i ≠ ctz x))) ∧
      x.testBit (ctz x) = true ∧
      ∀ j, j < ctz x → x.testBit j = false) := by
  refine ⟨Nat.zero_and _, fun hx => ⟨?_, fun i => tor_testBit hw hx i,
    testBit_ctz_self hx, fun j hj => testBit_lt_ctz hj⟩⟩
  show x &&& wsub w x 1 = x &&& (x - 1)
  rw [wsub_one (by omega) hw]

theorem claim_C7_witness :
    (206 : Nat) < 2 ^ 8 ∧ (206 : Nat) ≠ 0 ∧
      binary_turn_off_rightmost_one 8 206 = 206 &&& (206 - 1) :=
  ⟨by decide, by decide, ((claim_C7 8 206 (by decide)).2 (by decide)).1⟩

/-- Claim C8: for every `w`-bit word `x` that is not all-ones,
`binary_turn_on_rightmost_zero w x` equals `x ||| (x + 1)`, sets exactly the
lowest clear bit `ctz (x + 1)` of `x` and leaves every other bit unchanged;
on the all-ones word it returns all-ones, because `x + 1` wraps to `0` and
`x ||| 0 = x`. -/
theorem claim_C8 (w x : Nat) (hw : x < 2 ^ w) :
    (x = 2 ^ w - 1 → binary_turn_on_rightmost_zero w x = 2 ^ w - 1) ∧
    (x ≠ 2 ^ w - 1 →
      binary_turn_on_rightmost_zero w x = x ||| (x + 1) ∧
      (∀ i, (binary_turn_on_rightmost_zero w x).testBit i =
        (x.testBit i || decide (i = ctz (x + 1)))) ∧
      x.testBit (ctz (x + 1)) = false ∧
      ∀ j, j < ctz (x + 1) → x.testBit j = true) := by
  have hpos := Nat.two_pow_pos w
  constructor
  · intro hfull
    subst hfull
    show (2 ^ w - 1) ||| wadd w (2 ^ w - 1) 1 = 2 ^ w - 1
    rw [wadd_eq_zero (by omega), Nat.or_zero]
  · intro hfull
    refine ⟨?_, fun i => torz0_testBit hw hfull i, testBit_cto_self x,
      fun j hj => testBit_lt_cto hj⟩
    show x ||| wadd w x 1 = x ||| (x + 1)
    rw [wadd_eq (by omega)]

theorem claim_C8_witness :
    (207 : Nat) < 2 ^ 8 ∧ (207 : Nat) ≠ 2 ^ 8 - 1 ∧
      binary_turn_on_rightmost_zero 8 207 = 207 ||| (207 + 1) :=
  ⟨by decide, by decide, ((claim_C8 8 207 (by decide)).2 (by decide)).1⟩

/-- Claim C9: for every nonzero `w`-bit word `x`,
`binary_turn_on_trailing_zeros w x` equals `x ||| (x - 1)`, sets exactly the
bits of the trailing run of clear bits (all positions below `ctz x`) and
leaves every other bit unchanged — a no-op when bit `0` of `x` is set; on
input `0`, `x - 1` wraps to all-ones and the result is all-ones. -/
theorem claim_C9 (w x : Nat) (hw : x < 2 ^ w) :
    (x = 0 → binary_turn_on_trailing_zeros w x = 2 ^ w - 1) ∧
    (x ≠ 0 →
      binary_turn_on_trailing_zeros w x = x ||| (x - 1) ∧
      (∀ i, (binary_turn_on_trailing_zeros w x).testBit i =
        (x.testBit i || decide (i < ctz x))) ∧
      (x % 2 = 1 → binary_turn_on_trailing_zeros w x = x)) := by
  constructor
  · intro hx
    subst hx
    show (0 : Nat) ||| wsub w 0 1 = 2 ^ w - 1
    rw [wsub_one_zero, Nat.zero_or]
  · intro hx
    refine ⟨?_, fun i => totz_testBit hw hx i, ?_⟩
    · show x ||| wsub w x 1 = x ||| (x - 1)
      rw [wsub_one (by omega) hw]
    · intro hodd
      rw [totz_eq hw hx, ctz_odd hodd]
      norm_num

theorem claim_C9_witness :
    (216 : Nat) < 2 ^ 8 ∧ (216 : Nat) ≠ 0 ∧
      binary_turn_on_trailing_zeros 8 216 = 216 ||| (216 - 1) :=
  ⟨by decide, by decide, ((claim_C9 8 216 (by decide)).2 (by decide)).1⟩

/-- Claim C10: at the two boundary inputs left open by the spec,
`binary_leading_ones_bitmask` returns `0` both on `0` and on the all-ones
word `2 ^ w - 1`; moreover for `1 ≤ w`, on all-ones the rightmost-one mask
is `1` and the wrapped sum `1 + (2 ^ w - 1)` is `0`. -/
theorem claim_C10 (w : Nat) :
    binary_leading_ones_bitmask w 0 = 0 ∧
    binary_leading_ones_bitmask w (2 ^ w - 1) = 0 ∧
    (1 ≤ w →
      binary_rightmost_one_bitmask w (2 ^ w - 1) = 1 ∧
      wadd w 1 (2 ^ w - 1) = 0) := by
  have hpos := Nat.two_pow_pos w
  have hmain : w ≠ 0 →
      binary_rightmost_one_bitmask w (2 ^ w - 1) = 1 ∧ wadd w 1 (2 ^ w - 1) = 0 := by
    intro hw
    constructor
    · show (2 ^ w - 1) &&& wsub w 0 (2 ^ w - 1) = 1
      have hone := one_lt_two_pow hw
      rw [wsub_zero_left (by omega) (by omega),
        show 2 ^ w - (2 ^ w - 1) = 1 from by omega, Nat.and_one_is_mod]
      have h2 : (2:Nat) ^ w = 2 * 2 ^ (w - 1) := by
        calc (2:Nat) ^ w = 2 ^ (1 + (w - 1)) := by congr 1; omega
          _ = 2 * 2 ^ (w - 1) := by rw [pow_add, pow_one]
      omega
    · exact wadd_eq_zero (by omega)
  refine ⟨Nat.and_zero _, ?_, fun hw1 => hmain (by omega)⟩
  by_cases hw : w = 0
  · subst hw
    rfl
  · obtain ⟨h1, h2⟩ := hmain hw
    show wadd w (binary_rightmost_one_bitmask w (2 ^ w - 1)) (2 ^ w - 1) &&& (2 ^ w - 1) = 0
    rw [h1, h2, Nat.zero_and]

theorem claim_C10_witness :
    (1 : Nat) ≤ 8 ∧ binary_leading_ones_bitmask 8 (2 ^ 8 - 1) = 0 ∧
      binary_rightmost_one_bitmask 8 (2 ^ 8 - 1) = 1 :=
  ⟨by decide, (claim_C10 8).2.1, ((claim_C10 8).2.2 (by decide)).1⟩

end Delight
